import Mathlib

/-!
Verification of the trace-log-to-test-case correlator `analyze_cpu_trace.py`.

Lines of the text artifacts are modelled as `List Char` (one list per line,
without the trailing newline, which the script's own processing discards or
strips anyway).  The character classes of the regular expressions are modelled
over ASCII, which covers the artifacts the script consumes.  Every regular
expression used by the script has the property that each quantified character
class is disjoint from the character that follows it, so Python's greedy
matching with backtracking coincides with maximal munch (`takeWhile` /
`dropWhile`); the embeddings below use that form.
-/

namespace SnesTrace

/-- One artifact line. -/
abbrev Line := List Char

/-- ASCII model of Python's `\s` class and of the characters removed by
`str.strip()`: space, tab, newline, carriage return, vertical tab, form feed. -/
def isPySpace (c : Char) : Bool :=
  c = ' ' || c = '\t' || c = '\n' || c = '\r' || c = '\x0b' || c = '\x0c'

/-- The class `[0-9a-f]` (lowercase hexadecimal digit). -/
def isLowerHex (c : Char) : Bool :=
  ('0' ≤ c && c ≤ '9') || ('a' ≤ c && c ≤ 'f')

/-- The class `[0-9A-Fa-f]` (hexadecimal digit of either case). -/
def isHexChar (c : Char) : Bool :=
  ('0' ≤ c && c ≤ '9') || ('a' ≤ c && c ≤ 'f') || ('A' ≤ c && c ≤ 'F')

/-- Value of one hexadecimal digit. -/
def hexVal (c : Char) : Nat :=
  if '0' ≤ c && c ≤ '9' then c.toNat - '0'.toNat
  else if 'a' ≤ c && c ≤ 'f' then c.toNat - 'a'.toNat + 10
  else if 'A' ≤ c && c ≤ 'F' then c.toNat - 'A'.toNat + 10
  else 0

/-- Python's `int(s, 16)` on a run of hexadecimal digits. -/
def fromHex (s : List Char) : Nat :=
  s.foldl (fun acc c => 16 * acc + hexVal c) 0

/-- Python's `str.strip()` (ASCII whitespace model). -/
def pstrip (l : Line) : Line :=
  ((l.dropWhile isPySpace).reverse.dropWhile isPySpace).reverse

/-- Python's `str.lower()`, character-wise ASCII lowering. -/
def lowerLine (l : Line) : Line := l.map Char.toLower

/-! ### The dictionary built by `parse_map_file`

Python's `dict` is modelled as an association list with insertion-order
semantics: `dinsert` overwrites the value at an existing key in place and
appends a new key at the end, exactly like `d[k] = v`; `dget` is `d[k]`. -/

/-- `d[k] = v` on a Python dict: replace in place or append. -/
def dinsert (m : List (Nat × Nat)) (k v : Nat) : List (Nat × Nat) :=
  match m with
  | [] => [(k, v)]
  | (k', v') :: rest => if k' = k then (k, v) :: rest else (k', v') :: dinsert rest k v

/-- `d[k]` / `d.get(k)` on a Python dict. -/
def dget (m : List (Nat × Nat)) (k : Nat) : Option Nat :=
  match m with
  | [] => none
  | (k', v') :: rest => if k' = k then some v' else dget rest k

/-- `d.keys()`. -/
def dkeys (m : List (Nat × Nat)) : List Nat := m.map Prod.fst

/-! ### `parse_map_file` -/

/-- `re.match(r'^test([0-9a-f]+)\s+([0-9A-Fa-f]+)', line)` followed by
`int(group, 16)` on both groups.  Returns `(test_num, addr)`.  Each character
class is disjoint from what follows it, so the greedy `+` quantifiers are
maximal munch. -/
def decodeMapLine : Line → Option (Nat × Nat)
  | 't' :: 'e' :: 's' :: 't' :: rest =>
    let h1 := rest.takeWhile isLowerHex
    if h1.isEmpty then none else
    let r1 := rest.dropWhile isLowerHex
    let w := r1.takeWhile isPySpace
    if w.isEmpty then none else
    let r2 := r1.dropWhile isPySpace
    let h2 := r2.takeWhile isHexChar
    if h2.isEmpty then none else
    some (fromHex h1, fromHex h2)
  | _ => none

/-- `parse_map_file`: scan the lines, and for every line matching the map-line
grammar insert `addr ↦ test_num` into the dict. -/
def parse_map_file (lines : List Line) : List (Nat × Nat) :=
  lines.foldl
    (fun m l =>
      match decodeMapLine l with
      | some (t, a) => dinsert m a t
      | none => m)
    []

/-! ### `parse_trace_log` -/

/-- Attempt of the pattern `PC:0x([0-9A-Fa-f]+)\s+\|` at the start of the
given suffix; returns the decoded group on success.  Hex digits, whitespace
and `|` are pairwise disjoint classes, so greediness is maximal munch. -/
def matchPCAt : Line → Option Nat
  | 'P' :: 'C' :: ':' :: '0' :: 'x' :: rest =>
    let h := rest.takeWhile isHexChar
    if h.isEmpty then none else
    let r1 := rest.dropWhile isHexChar
    let w := r1.takeWhile isPySpace
    if w.isEmpty then none else
    match r1.dropWhile isPySpace with
    | '|' :: _ => some (fromHex h)
    | _ => none
  | _ => none

/-- `re.search(r'PC:0x([0-9A-Fa-f]+)\s+\|', line)`: try the pattern at every
position, leftmost match wins. -/
def searchPC : Line → Option Nat
  | [] => none
  | c :: rest =>
    match matchPCAt (c :: rest) with
    | some v => some v
    | none => searchPC rest

/-- `parse_trace_log`: keep the PC and stripped text of the last matching
line; `(none, none)` when no line matches. -/
def parse_trace_log (lines : List Line) : Option Nat × Option Line :=
  lines.foldl
    (fun acc l =>
      match searchPC l with
      | some v => (some v, some (pstrip l))
      | none => acc)
    (none, none)

/-! ### `find_test_for_pc` -/

/-- `sorted(test_map.keys())`.  Insertion sort is extensionally Python's
`sorted` on a list of naturals: both return the unique `≤`-sorted permutation
of the input. -/
def sortedAddrs (m : List (Nat × Nat)) : List Nat :=
  List.insertionSort (· ≤ ·) (dkeys m)

/-- The `for addr in sorted_addrs: if addr > pc: break; last_addr = addr`
loop, returning the final `last_addr`. -/
def walkLE (pc : Nat) : List Nat → Option Nat → Option Nat
  | [], last => last
  | a :: rest, last => if pc < a then last else walkLE pc rest (some a)

/-- `find_test_for_pc(test_map, pc)`: the triple
`(last_test, last_addr, next_addr)`, each component optional.  `last_test` is
looked up as `test_map[last_addr]`, which is what the loop's running
`last_test` equals on exit.  `sorted_addrs.index(last_addr)` is modelled by
`List.indexOf`; the bound-checked `sorted_addrs[idx+1]` by `getElem?`. -/
def find_test_for_pc (m : List (Nat × Nat)) (pc : Nat) :
    Option Nat × Option Nat × Option Nat :=
  let sorted_addrs := sortedAddrs m
  match walkLE pc sorted_addrs none with
  | none =>
    match sorted_addrs with
    | [] => (none, none, none)
    | first_addr :: rest => (dget m first_addr, some first_addr, rest.head?)
  | some last_addr =>
    let idx := sorted_addrs.indexOf last_addr
    match sorted_addrs[idx + 1]? with
    | some next_addr =>
      if pc < next_addr then (dget m last_addr, some last_addr, some next_addr)
      else (dget m last_addr, some last_addr, none)
    | none => (dget m last_addr, some last_addr, none)

/-- Variant of `find_test_for_pc` with the unmapped-gap branch removed: when a
next sorted address exists it is returned unconditionally, without the
`pc < next_addr` test.  Used to state that the gap branch is unreachable. -/
def find_test_for_pc_nogap (m : List (Nat × Nat)) (pc : Nat) :
    Option Nat × Option Nat × Option Nat :=
  let sorted_addrs := sortedAddrs m
  match walkLE pc sorted_addrs none with
  | none =>
    match sorted_addrs with
    | [] => (none, none, none)
    | first_addr :: rest => (dget m first_addr, some first_addr, rest.head?)
  | some last_addr =>
    let idx := sorted_addrs.indexOf last_addr
    match sorted_addrs[idx + 1]? with
    | some next_addr => (dget m last_addr, some last_addr, some next_addr)
    | none => (dget m last_addr, some last_addr, none)

/-! ### `find_test_assembly` -/

/-- `f'test{test_num:04x}:'`: the label text, lowercase hex padded to at
least four digits, with the trailing colon. -/
def testLabel (n : Nat) : Line :=
  let ds := Nat.toDigits 16 n
  ['t', 'e', 's', 't'] ++ (List.replicate (4 - ds.length) '0' ++ ds) ++ [':']

/-- Python's substring test `pat in l`. -/
def containsSub (pat : Line) : Line → Bool
  | [] => pat.isEmpty
  | c :: t => pat.isPrefixOf (c :: t) || containsSub pat t

/-- `f'{test_name}:' in line or f'{test_name}:' in line.lower()`. -/
def isMarkerLine (tn : Line) (l : Line) : Bool :=
  containsSub tn l || containsSub tn (lowerLine l)

/-- `re.match(r'^test[0-9a-f]+:', line, re.IGNORECASE)`: on the lowered line,
the literal `test`, then a maximal nonempty run of `[0-9a-f]`, then `:`. -/
def isBoundaryLine (l : Line) : Bool :=
  match lowerLine l with
  | 't' :: 'e' :: 's' :: 't' :: rest =>
    let h := rest.takeWhile isLowerHex
    if h.isEmpty then false else
    match rest.dropWhile isLowerHex with
    | ':' :: _ => true
    | _ => false
  | _ => false

/-- The scanning loop of `find_test_assembly`: marker lines are collected and
set `in_test`; once `in_test`, a line matching the boundary grammar stops the
scan (excluded), every other line is collected. -/
def ftaLoop (tn : Line) : List Line → Bool → List Line → List Line
  | [], _, acc => acc
  | l :: ls, inTest, acc =>
    if isMarkerLine tn l then ftaLoop tn ls true (acc ++ [l])
    else if inTest then
      if isBoundaryLine l then acc
      else ftaLoop tn ls inTest (acc ++ [l])
    else ftaLoop tn ls inTest acc

/-- `find_test_assembly(inc_lines, test_num)`. -/
def find_test_assembly (lines : List Line) (test_num : Nat) : List Line :=
  ftaLoop (testLabel test_num) lines false []

/-! ### Groundwork: dictionary lemmas -/

theorem dget_dinsert (m : List (Nat × Nat)) (k v k' : Nat) :
    dget (dinsert m k v) k' = if k' = k then some v else dget m k' := by
  induction m with
  | nil =>
    by_cases h : k' = k
    · subst h; simp [dinsert, dget]
    · have h2 : ¬ k = k' := fun hc => h hc.symm
      simp [dinsert, dget, h, h2]
  | cons p rest ih =>
    obtain ⟨k₁, v₁⟩ := p
    by_cases h1 : k₁ = k
    · subst h1
      by_cases h2 : k' = k₁
      · subst h2; simp [dinsert, dget]
      · have h3 : ¬ k₁ = k' := fun hc => h2 hc.symm
        simp [dinsert, dget, h2, h3]
    · by_cases h2 : k₁ = k'
      · subst h2
        simp [dinsert, dget, h1]
      · have h4 : ¬ k' = k₁ := fun hc => h2 hc.symm
        simp [dinsert, dget, h1, h2, h4, ih]

theorem mem_of_dget {m : List (Nat × Nat)} {k v : Nat} (h : dget m k = some v) :
    (k, v) ∈ m := by
  induction m with
  | nil => simp [dget] at h
  | cons p rest ih =>
    obtain ⟨k₁, v₁⟩ := p
    by_cases h1 : k₁ = k
    · subst h1
      simp [dget] at h
      simp [h]
    · simp [dget, h1] at h
      exact List.mem_cons_of_mem _ (ih h)

theorem dget_eq_none_iff {m : List (Nat × Nat)} {k : Nat} :
    dget m k = none ↔ k ∉ dkeys m := by
  induction m with
  | nil => simp [dget, dkeys]
  | cons p rest ih =>
    obtain ⟨k₁, v₁⟩ := p
    by_cases h1 : k₁ = k
    · subst h1
      simp [dget, dkeys]
    · have h2 : ¬ k = k₁ := fun hc => h1 hc.symm
      have hstep : dget ((k₁, v₁) :: rest) k = dget rest k := by
        simp [dget, h1]
      have hk : dkeys ((k₁, v₁) :: rest) = k₁ :: dkeys rest := rfl
      rw [hstep, ih, hk]
      simp [h2]

theorem exists_dget_of_mem {m : List (Nat × Nat)} {k : Nat} (h : k ∈ dkeys m) :
    ∃ v, dget m k = some v := by
  cases hv : dget m k with
  | none => exact absurd (dget_eq_none_iff.mp hv) (not_not_intro h)
  | some v => exact ⟨v, rfl⟩

theorem dget_eq_some_of_mem {m : List (Nat × Nat)} {k v : Nat}
    (hnd : (dkeys m).Nodup) (h : (k, v) ∈ m) : dget m k = some v := by
  induction m with
  | nil => simp at h
  | cons p rest ih =>
    obtain ⟨k₁, v₁⟩ := p
    have hk : dkeys ((k₁, v₁) :: rest) = k₁ :: dkeys rest := rfl
    rw [hk] at hnd
    have hnd' : (dkeys rest).Nodup := (List.nodup_cons.mp hnd).2
    have hnotmem : k₁ ∉ dkeys rest := (List.nodup_cons.mp hnd).1
    rcases List.mem_cons.mp h with heq | hmem
    · cases heq
      simp [dget]
    · have hkm : k ∈ dkeys rest := List.mem_map_of_mem Prod.fst hmem
      have h1 : ¬ k₁ = k := fun hc => hnotmem (hc ▸ hkm)
      simp only [dget, if_neg h1]
      exact ih hnd' hmem

theorem mem_dkeys_of_dget {m : List (Nat × Nat)} {k v : Nat} (h : dget m k = some v) :
    k ∈ dkeys m :=
  List.mem_map_of_mem Prod.fst (mem_of_dget h)

/-! ### Groundwork: sorted addresses -/

theorem sortedAddrs_sorted (m : List (Nat × Nat)) :
    (sortedAddrs m).Sorted (· ≤ ·) :=
  List.sorted_insertionSort _ _

theorem sortedAddrs_perm (m : List (Nat × Nat)) : (sortedAddrs m).Perm (dkeys m) :=
  List.perm_insertionSort _ _

theorem mem_sortedAddrs {m : List (Nat × Nat)} {a : Nat} :
    a ∈ sortedAddrs m ↔ a ∈ dkeys m :=
  (sortedAddrs_perm m).mem_iff

theorem sortedAddrs_nodup {m : List (Nat × Nat)} (hnd : (dkeys m).Nodup) :
    (sortedAddrs m).Nodup :=
  ((sortedAddrs_perm m).nodup_iff).mpr hnd

theorem sorted_lt_of_nodup {l : List Nat} (hs : l.Sorted (· ≤ ·)) (hnd : l.Nodup) :
    l.Sorted (· < ·) :=
  (hs.and hnd).imp (fun h => lt_of_le_of_ne h.1 h.2)

/-- Any member of a `≤`-sorted list is at most its last element. -/
theorem mem_le_getLast : ∀ {l : List Nat}, l.Sorted (· ≤ ·) → (hne : l ≠ []) →
    ∀ a ∈ l, a ≤ l.getLast hne := by
  intro l
  induction l with
  | nil => intro _ hne; simp at hne
  | cons x tl ih =>
    intro hs hne a ha
    cases tl with
    | nil =>
      simp at ha
      simp [List.getLast, ha]
    | cons y tl' =>
      have hlast : (x :: y :: tl').getLast hne = (y :: tl').getLast (by simp) :=
        List.getLast_cons (by simp)
      rw [hlast]
      rcases List.mem_cons.mp ha with rfl | hmem
      · exact le_trans (List.rel_of_sorted_cons hs y (List.mem_cons_self y tl'))
          (ih hs.of_cons (by simp) y (List.mem_cons_self y tl'))
      · exact ih hs.of_cons (by simp) a hmem

/-! ### Groundwork: the walk loop -/

theorem walkLE_eq (pc : Nat) (L : List Nat) (acc : Option Nat) :
    walkLE pc L acc =
      match (L.takeWhile (fun a => decide (a ≤ pc))).getLast? with
      | none => acc
      | some s => some s := by
  induction L generalizing acc with
  | nil => simp [walkLE]
  | cons a rest ih =>
    by_cases h : pc < a
    · have hna : ¬ a ≤ pc := not_le_of_lt h
      simp [walkLE, h, List.takeWhile_cons, hna]
    · have ha : a ≤ pc := le_of_not_lt h
      rw [walkLE, if_neg h, ih, List.takeWhile_cons, if_pos (by simpa using ha)]
      cases hlast : (rest.takeWhile (fun a => decide (a ≤ pc))).getLast? with
      | none =>
        have : rest.takeWhile (fun a => decide (a ≤ pc)) = [] := by
          cases hE : rest.takeWhile (fun a => decide (a ≤ pc)) with
          | nil => rfl
          | cons b t =>
            rw [hE, List.getLast?_eq_getLast _ (by simp)] at hlast
            simp at hlast
        simp [this]
      | some s => simp [List.getLast?_cons, Option.getD] at hlast ⊢; simp [hlast]

/-! ### Groundwork: positional helpers -/

theorem indexOf_append_cons_self (T' : List Nat) (s : Nat) (D : List Nat)
    (h : s ∉ T') : (T' ++ s :: D).indexOf s = T'.length := by
  induction T' with
  | nil => simp [List.indexOf_cons_self]
  | cons t T'' ih =>
    have ht : t ≠ s := fun hc => h (hc ▸ List.mem_cons_self t T'')
    have h' : s ∉ T'' := fun hc => h (List.mem_cons_of_mem t hc)
    simp only [List.cons_append, List.indexOf_cons_ne _ ht, ih h', List.length_cons]

theorem getElem?_append_cons_succ (T' : List Nat) (s : Nat) (D : List Nat) :
    (T' ++ s :: D)[T'.length + 1]? = D.head? := by
  induction T' with
  | nil =>
    cases D <;> simp
  | cons t T'' ih =>
    simpa using ih

/-- Unfolding `find_test_for_pc` when the walk found a `last_addr`. -/
theorem find_eq_of_walk_some (m : List (Nat × Nat)) (pc s : Nat)
    (h : walkLE pc (sortedAddrs m) none = some s) :
    find_test_for_pc m pc =
      match (sortedAddrs m)[(sortedAddrs m).indexOf s + 1]? with
      | some next_addr =>
        if pc < next_addr then (dget m s, some s, some next_addr)
        else (dget m s, some s, none)
      | none => (dget m s, some s, none) := by
  unfold find_test_for_pc
  dsimp only
  rw [h]

/-- Unfolding `find_test_for_pc_nogap` when the walk found a `last_addr`. -/
theorem find_nogap_eq_of_walk_some (m : List (Nat × Nat)) (pc s : Nat)
    (h : walkLE pc (sortedAddrs m) none = some s) :
    find_test_for_pc_nogap m pc =
      match (sortedAddrs m)[(sortedAddrs m).indexOf s + 1]? with
      | some next_addr => (dget m s, some s, some next_addr)
      | none => (dget m s, some s, none) := by
  unfold find_test_for_pc_nogap
  dsimp only
  rw [h]

/-- Unfolding `find_test_for_pc` when the walk found nothing. -/
theorem find_eq_of_walk_none (m : List (Nat × Nat)) (pc : Nat)
    (h : walkLE pc (sortedAddrs m) none = none) :
    find_test_for_pc m pc =
      match sortedAddrs m with
      | [] => (none, none, none)
      | first_addr :: rest => (dget m first_addr, some first_addr, rest.head?) := by
  unfold find_test_for_pc
  dsimp only
  rw [h]

theorem dropWhile_head_false {α : Type} (p : α → Bool) :
    ∀ (l : List α) {c : α} {rest : List α}, l.dropWhile p = c :: rest → p c = false := by
  intro l
  induction l with
  | nil => intro c rest h; simp [List.dropWhile] at h
  | cons a t ih =>
    intro c rest h
    by_cases hpa : p a = true
    · rw [List.dropWhile_cons, if_pos hpa] at h
      exact ih h
    · rw [List.dropWhile_cons, if_neg hpa] at h
      cases h
      exact Bool.eq_false_iff.mpr hpa

/-- Central case analysis of `find_test_for_pc` when some key is `≤ pc`:
the returned start is the greatest key not exceeding `pc`, and the end is the
least strictly greater key (necessarily `> pc`) or `none` when the start is
the greatest key.  Both `find_test_for_pc` and its gap-branch-free variant
produce the same triple. -/
theorem find_ge_cases (m : List (Nat × Nat)) (pc : Nat)
    (hnd : (dkeys m).Nodup) (a0 : Nat) (ha0 : a0 ∈ dkeys m) (hle : a0 ≤ pc) :
    ∃ s t, s ∈ dkeys m ∧ dget m s = some t ∧ s ≤ pc ∧
      (∀ a ∈ dkeys m, a ≤ pc → a ≤ s) ∧
      ((∃ d, d ∈ dkeys m ∧ s < d ∧ pc < d ∧ (∀ a ∈ dkeys m, s < a → d ≤ a) ∧
          find_test_for_pc m pc = (some t, some s, some d) ∧
          find_test_for_pc_nogap m pc = (some t, some s, some d)) ∨
        ((∀ a ∈ dkeys m, a ≤ s) ∧
          find_test_for_pc m pc = (some t, some s, none) ∧
          find_test_for_pc_nogap m pc = (some t, some s, none))) := by
  classical
  set L := sortedAddrs m with hL
  have hS : L.Sorted (· ≤ ·) := sortedAddrs_sorted m
  have hmem : ∀ x : Nat, x ∈ L ↔ x ∈ dkeys m := fun x => mem_sortedAddrs
  have hndL : L.Nodup := sortedAddrs_nodup hnd
  set p : Nat → Bool := fun a => decide (a ≤ pc) with hp
  set T := L.takeWhile p with hT
  set D := L.dropWhile p with hD
  have hTD : T ++ D = L := List.takeWhile_append_dropWhile p L
  have ha0L : a0 ∈ L := (hmem a0).mpr ha0
  have hLne : L ≠ [] := fun hc => by simp [hc] at ha0L
  have hTne : T ≠ [] := by
    obtain ⟨h0, tl, hcons⟩ := List.exists_cons_of_ne_nil hLne
    have hh0 : h0 ≤ pc := by
      rcases List.mem_cons.mp (hcons ▸ ha0L) with rfl | hmem0
      · exact hle
      · exact le_trans (List.rel_of_sorted_cons (hcons ▸ hS) a0 hmem0) hle
    rw [hT, hcons, List.takeWhile_cons, if_pos (by simp [hp, hh0])]
    simp
  set s := T.getLast hTne with hs
  have hsT : s ∈ T := List.getLast_mem hTne
  have hsL : s ∈ L := hTD ▸ List.mem_append_left D hsT
  have hsK : s ∈ dkeys m := (hmem s).mp hsL
  have hsle : s ≤ pc := by
    have := List.mem_takeWhile_imp (hT ▸ hsT)
    simpa [hp] using this
  obtain ⟨t, ht⟩ := exists_dget_of_mem hsK
  have hwalk : walkLE pc L none = some s := by
    rw [walkLE_eq, ← hp, ← hT, List.getLast?_eq_getLast T hTne]
  set T' := T.dropLast with hT'
  have hTsplit : T' ++ [s] = T := List.dropLast_append_getLast hTne
  have hLsplit : L = T' ++ s :: D := by
    rw [← hTD, ← hTsplit, List.append_assoc, List.singleton_append]
  have hsnotT' : s ∉ T' := by
    have h1 : (T' ++ s :: D).Nodup := hLsplit ▸ hndL
    have h2 := (List.nodup_append.mp h1).2.2
    intro hc
    exact h2 hc (List.mem_cons_self s D)
  have hidx : L.indexOf s = T'.length := by
    rw [hLsplit]; exact indexOf_append_cons_self T' s D hsnotT'
  have hnext : L[L.indexOf s + 1]? = D.head? := by
    rw [hidx, hLsplit]; exact getElem?_append_cons_succ T' s D
  have hTS : T.Sorted (· ≤ ·) := hS.sublist (hT ▸ List.takeWhile_sublist p)
  have hDS : D.Sorted (· ≤ ·) := hS.sublist (hD ▸ List.dropWhile_sublist p)
  have hmaxT : ∀ a ∈ T, a ≤ s := fun a ha => mem_le_getLast hTS hTne a ha
  have hDgt : ∀ a ∈ D, pc < a := by
    intro a haD
    cases hDc : D with
    | nil => rw [hDc] at haD; simp at haD
    | cons d D' =>
      have hd : p d = false := dropWhile_head_false p L (hD ▸ hDc)
      have hdgt : pc < d := by
        have : ¬ d ≤ pc := by simpa [hp] using hd
        omega
      rw [hDc] at haD
      rcases List.mem_cons.mp haD with rfl | hmem'
      · exact hdgt
      · exact lt_of_lt_of_le hdgt
          (List.rel_of_sorted_cons (hDc ▸ hDS) a hmem')
  have hmax : ∀ a ∈ dkeys m, a ≤ pc → a ≤ s := by
    intro a haK hape
    have haL : a ∈ L := (hmem a).mpr haK
    rcases List.mem_append.mp (hTD ▸ haL : a ∈ T ++ D) with haT | haD
    · exact hmaxT a haT
    · exact absurd hape (not_le_of_lt (hDgt a haD))
  have hfind := find_eq_of_walk_some m pc s (hL ▸ hwalk)
  have hfind2 := find_nogap_eq_of_walk_some m pc s (hL ▸ hwalk)
  rw [← hL] at hfind hfind2
  rw [hnext] at hfind hfind2
  refine ⟨s, t, hsK, ht, hsle, hmax, ?_⟩
  cases hDc : D with
  | nil =>
    right
    rw [hDc] at hfind hfind2
    simp only [List.head?_nil] at hfind hfind2
    refine ⟨?_, by rw [hfind, ht], by rw [hfind2, ht]⟩
    intro a haK
    have haL : a ∈ L := (hmem a).mpr haK
    rcases List.mem_append.mp (hTD ▸ haL : a ∈ T ++ D) with haT | haD
    · exact hmaxT a haT
    · rw [hDc] at haD; simp at haD
  | cons d D' =>
    left
    have hdD : d ∈ D := hDc ▸ List.mem_cons_self d D'
    have hdgt : pc < d := hDgt d hdD
    have hdL : d ∈ L := hTD ▸ List.mem_append_right T hdD
    have hdK : d ∈ dkeys m := (hmem d).mp hdL
    have hleast : ∀ a ∈ dkeys m, s < a → d ≤ a := by
      intro a haK hsa
      have haL : a ∈ L := (hmem a).mpr haK
      rcases List.mem_append.mp (hTD ▸ haL : a ∈ T ++ D) with haT | haD
      · exact absurd hsa (not_lt_of_le (hmaxT a haT))
      · rw [hDc] at haD
        rcases List.mem_cons.mp haD with rfl | hmem'
        · exact le_refl _
        · exact List.rel_of_sorted_cons (hDc ▸ hDS) a hmem'
    rw [hDc] at hfind hfind2
    simp only [List.head?_cons] at hfind hfind2
    rw [if_pos hdgt] at hfind
    exact ⟨d, hdK, lt_of_le_of_lt hsle hdgt, hdgt, hleast,
      by rw [hfind, ht], by rw [hfind2, ht]⟩

/-- Case analysis of `find_test_for_pc` when `pc` strictly precedes every key:
the fallback returns the minimum key, its test id, and the second-smallest key
(or `none` for a singleton table). -/
theorem find_lt_cases (m : List (Nat × Nat)) (pc : Nat)
    (hnd : (dkeys m).Nodup) (hne : m ≠ []) (hlt : ∀ a ∈ dkeys m, pc < a) :
    ∃ a0 t e, a0 ∈ dkeys m ∧ (∀ a ∈ dkeys m, a0 ≤ a) ∧ dget m a0 = some t ∧
      find_test_for_pc m pc = (some t, some a0, e) ∧
      (∀ n, e = some n → n ∈ dkeys m ∧ a0 < n ∧ ∀ a ∈ dkeys m, a ≠ a0 → n ≤ a) ∧
      (e = none → ∀ a ∈ dkeys m, a = a0) := by
  classical
  set L := sortedAddrs m with hL
  have hS : L.Sorted (· ≤ ·) := sortedAddrs_sorted m
  have hmem : ∀ x : Nat, x ∈ L ↔ x ∈ dkeys m := fun x => mem_sortedAddrs
  have hndL : L.Nodup := sortedAddrs_nodup hnd
  have hSlt : L.Sorted (· < ·) := sorted_lt_of_nodup hS hndL
  obtain ⟨q, m', hm⟩ := List.exists_cons_of_ne_nil hne
  have hqK : q.1 ∈ dkeys m := by
    rw [hm]; exact List.mem_cons_self _ _
  have hqL : q.1 ∈ L := (hmem _).mpr hqK
  have hLne : L ≠ [] := fun hc => by simp [hc] at hqL
  obtain ⟨a0, tl, hcons⟩ := List.exists_cons_of_ne_nil hLne
  have ha0L : a0 ∈ L := hcons ▸ List.mem_cons_self a0 tl
  have ha0K : a0 ∈ dkeys m := (hmem a0).mp ha0L
  have hp0 : (decide (a0 ≤ pc)) = false :=
    decide_eq_false (not_le_of_lt (hlt a0 ha0K))
  have hwalk : walkLE pc L none = none := by
    rw [walkLE_eq, hcons, List.takeWhile_cons]
    simp [hp0]
  obtain ⟨t, ht⟩ := exists_dget_of_mem ha0K
  have hfind : find_test_for_pc m pc = (some t, some a0, tl.head?) := by
    have h1 := find_eq_of_walk_none m pc (hL ▸ hwalk)
    rw [← hL, hcons] at h1
    rw [h1]
    show (dget m a0, some a0, tl.head?) = _
    rw [ht]
  have hmin : ∀ a ∈ dkeys m, a0 ≤ a := by
    intro a haK
    have haL : a ∈ L := (hmem a).mpr haK
    rw [hcons] at haL
    rcases List.mem_cons.mp haL with rfl | hmem'
    · exact le_refl _
    · exact List.rel_of_sorted_cons (hcons ▸ hS) a hmem'
  have hStl : tl.Sorted (· ≤ ·) := (hcons ▸ hS).of_cons
  refine ⟨a0, t, tl.head?, ha0K, hmin, ht, hfind, ?_, ?_⟩
  · intro n hn
    cases htl : tl with
    | nil => rw [htl] at hn; simp at hn
    | cons n' tl' =>
      rw [htl] at hn
      simp only [List.head?_cons, Option.some.injEq] at hn
      rw [htl] at hStl
      have hnmem : n ∈ tl := by
        rw [htl, ← hn]; exact List.mem_cons_self n' tl'
      have hnL : n ∈ L := by
        rw [hcons]; exact List.mem_cons_of_mem a0 hnmem
      refine ⟨(hmem n).mp hnL, ?_, ?_⟩
      · exact List.rel_of_sorted_cons (hcons ▸ hSlt) n hnmem
      · intro a haK hane
        have haL : a ∈ L := (hmem a).mpr haK
        rw [hcons, htl] at haL
        rcases List.mem_cons.mp haL with rfl | hmem'
        · exact absurd rfl hane
        · rcases List.mem_cons.mp hmem' with rfl | hmem''
          · exact le_of_eq hn.symm
          · exact hn ▸ List.rel_of_sorted_cons hStl a hmem''
  · intro hnone a haK
    cases htl : tl with
    | cons n' tl' => rw [htl] at hnone; simp at hnone
    | nil =>
      have haL : a ∈ L := (hmem a).mpr haK
      rw [hcons, htl] at haL
      simpa using haL

/-! ### Claims about `find_test_for_pc` -/

/-- C1: for every non-empty symbol table (duplicate-free keys, as in a Python
dict) and every `pc` at least the minimum mapped address, `find_test_for_pc`
returns `(test_id, start, end)` where `start` is the greatest mapped address
not exceeding `pc`, `test_id` is the table's value at `start`, and `end` is
the next strictly greater mapped address — necessarily above `pc` — when it
exists, else `none`. -/
theorem c1_resolve_ge_min (m : List (Nat × Nat)) (pc : Nat)
    (hnd : (dkeys m).Nodup) (a0 : Nat) (ha0 : a0 ∈ dkeys m) (hle : a0 ≤ pc) :
    ∃ s t e, find_test_for_pc m pc = (some t, some s, e) ∧
      s ∈ dkeys m ∧ s ≤ pc ∧ (∀ a ∈ dkeys m, a ≤ pc → a ≤ s) ∧
      dget m s = some t ∧
      (∀ n, e = some n →
        n ∈ dkeys m ∧ s < n ∧ pc < n ∧ ∀ a ∈ dkeys m, s < a → n ≤ a) ∧
      (e = none → ∀ a ∈ dkeys m, a ≤ s) := by
  obtain ⟨s, t, hsK, ht, hsle, hmax, hcase⟩ := find_ge_cases m pc hnd a0 ha0 hle
  rcases hcase with ⟨d, hdK, hsd, hpcd, hleast, hfind, _⟩ | ⟨hmax2, hfind, _⟩
  · refine ⟨s, t, some d, hfind, hsK, hsle, hmax, ht, ?_, ?_⟩
    · intro n hn
      injection hn with h2
      subst h2
      exact ⟨hdK, hsd, hpcd, hleast⟩
    · intro hc; cases hc
  · refine ⟨s, t, none, hfind, hsK, hsle, hmax, ht, ?_, fun _ => hmax2⟩
    intro n hn; cases hn

theorem c1_resolve_ge_min_witness :
    ((dkeys [(0x1000, 1), (0x2000, 2), (0x3000, 3)]).Nodup ∧
      0x1000 ∈ dkeys [(0x1000, 1), (0x2000, 2), (0x3000, 3)] ∧
      0x1000 ≤ 0x2500) ∧
    (∃ s t e,
      find_test_for_pc [(0x1000, 1), (0x2000, 2), (0x3000, 3)] 0x2500 =
        (some t, some s, e) ∧
      s ∈ dkeys [(0x1000, 1), (0x2000, 2), (0x3000, 3)] ∧ s ≤ 0x2500 ∧
      (∀ a ∈ dkeys [(0x1000, 1), (0x2000, 2), (0x3000, 3)], a ≤ 0x2500 → a ≤ s) ∧
      dget [(0x1000, 1), (0x2000, 2), (0x3000, 3)] s = some t ∧
      (∀ n, e = some n →
        n ∈ dkeys [(0x1000, 1), (0x2000, 2), (0x3000, 3)] ∧ s < n ∧ 0x2500 < n ∧
        ∀ a ∈ dkeys [(0x1000, 1), (0x2000, 2), (0x3000, 3)], s < a → n ≤ a) ∧
      (e = none → ∀ a ∈ dkeys [(0x1000, 1), (0x2000, 2), (0x3000, 3)], a ≤ s)) :=
  ⟨⟨by decide, by decide, by decide⟩,
    c1_resolve_ge_min [(0x1000, 1), (0x2000, 2), (0x3000, 3)] 0x2500
      (by decide) 0x1000 (by decide) (by decide)⟩

/-- C3: for every non-empty symbol table and every `pc` strictly below the
minimum mapped address, `find_test_for_pc` returns the test id mapped at the
minimum address, with `start` the minimum address and `end` the second
smallest address, or `none` when the table has exactly one entry. -/
theorem c3_resolve_before_min (m : List (Nat × Nat)) (pc : Nat)
    (hnd : (dkeys m).Nodup) (hne : m ≠ []) (hlt : ∀ a ∈ dkeys m, pc < a) :
    ∃ a0 t e, find_test_for_pc m pc = (some t, some a0, e) ∧
      a0 ∈ dkeys m ∧ (∀ a ∈ dkeys m, a0 ≤ a) ∧ dget m a0 = some t ∧
      (∀ n, e = some n →
        n ∈ dkeys m ∧ a0 < n ∧ ∀ a ∈ dkeys m, a ≠ a0 → n ≤ a) ∧
      (e = none → ∀ a ∈ dkeys m, a = a0) := by
  obtain ⟨a0, t, e, h1, h2, h3, h4, h5, h6⟩ := find_lt_cases m pc hnd hne hlt
  exact ⟨a0, t, e, h4, h1, h2, h3, h5, h6⟩

theorem c3_resolve_before_min_witness :
    ((dkeys [(0x1000, 1), (0x2000, 2)]).Nodup ∧
      ([(0x1000, 1), (0x2000, 2)] : List (Nat × Nat)) ≠ [] ∧
      (∀ a ∈ dkeys [(0x1000, 1), (0x2000, 2)], 0x0500 < a)) ∧
    (∃ a0 t e,
      find_test_for_pc [(0x1000, 1), (0x2000, 2)] 0x0500 = (some t, some a0, e) ∧
      a0 ∈ dkeys [(0x1000, 1), (0x2000, 2)] ∧
      (∀ a ∈ dkeys [(0x1000, 1), (0x2000, 2)], a0 ≤ a) ∧
      dget [(0x1000, 1), (0x2000, 2)] a0 = some t ∧
      (∀ n, e = some n →
        n ∈ dkeys [(0x1000, 1), (0x2000, 2)] ∧ a0 < n ∧
        ∀ a ∈ dkeys [(0x1000, 1), (0x2000, 2)], a ≠ a0 → n ≤ a) ∧
      (e = none → ∀ a ∈ dkeys [(0x1000, 1), (0x2000, 2)], a = a0)) :=
  ⟨⟨by decide, by decide, by decide⟩,
    c3_resolve_before_min [(0x1000, 1), (0x2000, 2)] 0x0500
      (by decide) (by decide) (by decide)⟩

/-- C5: `find_test_for_pc` is deterministic and idempotent: repeated
application to the same inputs yields the same triple, and the result does
not depend on the iteration (insertion) order of the table, because the walk
operates on the sorted key list. -/
theorem c5_resolve_deterministic (m m' : List (Nat × Nat)) (pc : Nat)
    (hnd : (dkeys m).Nodup) (hperm : m.Perm m') :
    find_test_for_pc m pc = find_test_for_pc m pc ∧
    find_test_for_pc m' pc = find_test_for_pc m pc := by
  refine ⟨rfl, ?_⟩
  have hkperm : (dkeys m).Perm (dkeys m') := hperm.map Prod.fst
  have hnd' : (dkeys m').Nodup := hkperm.nodup_iff.mp hnd
  have hsort : sortedAddrs m' = sortedAddrs m :=
    List.eq_of_perm_of_sorted
      ((sortedAddrs_perm m').trans (hkperm.symm.trans (sortedAddrs_perm m).symm))
      (sortedAddrs_sorted m') (sortedAddrs_sorted m)
  have hdget : ∀ k, dget m' k = dget m k := by
    intro k
    cases h : dget m k with
    | none =>
      have h1 : k ∉ dkeys m := dget_eq_none_iff.mp h
      have h2 : k ∉ dkeys m' := fun hc => h1 (hkperm.mem_iff.mpr hc)
      exact dget_eq_none_iff.mpr h2
    | some v =>
      exact dget_eq_some_of_mem hnd' (hperm.mem_iff.mp (mem_of_dget h))
  simp only [find_test_for_pc, hsort, hdget]

theorem c5_resolve_deterministic_witness :
    ((dkeys [(0x2000, 2), (0x1000, 1)]).Nodup ∧
      ([(0x2000, 2), (0x1000, 1)] : List (Nat × Nat)).Perm
        [(0x1000, 1), (0x2000, 2)]) ∧
    (find_test_for_pc [(0x2000, 2), (0x1000, 1)] 0x1500 =
        find_test_for_pc [(0x2000, 2), (0x1000, 1)] 0x1500 ∧
      find_test_for_pc [(0x1000, 1), (0x2000, 2)] 0x1500 =
        find_test_for_pc [(0x2000, 2), (0x1000, 1)] 0x1500) :=
  ⟨⟨by decide, by decide⟩,
    c5_resolve_deterministic [(0x2000, 2), (0x1000, 1)] [(0x1000, 1), (0x2000, 2)]
      0x1500 (by decide) (by decide)⟩

/-- C9 (implicit): for every non-empty symbol table and every `pc`, the triple
returned by `find_test_for_pc` is a genuine table entry and range: `start` is
a key, `test_id` is the table's value at `start`, and a non-`none` `end` is a
key strictly greater than `start`. -/
theorem c9_result_is_table_entry (m : List (Nat × Nat)) (pc : Nat)
    (hnd : (dkeys m).Nodup) (hne : m ≠ []) :
    ∃ t s e, find_test_for_pc m pc = (some t, some s, e) ∧
      s ∈ dkeys m ∧ dget m s = some t ∧
      ∀ n, e = some n → n ∈ dkeys m ∧ s < n := by
  classical
  by_cases h : ∃ a ∈ dkeys m, a ≤ pc
  · obtain ⟨a0, ha0, hle⟩ := h
    obtain ⟨s, t, hsK, ht, _, _, hcase⟩ := find_ge_cases m pc hnd a0 ha0 hle
    rcases hcase with ⟨d, hdK, hsd, _, _, hfind, _⟩ | ⟨_, hfind, _⟩
    · refine ⟨t, s, some d, hfind, hsK, ht, ?_⟩
      intro n hn
      injection hn with h2
      subst h2
      exact ⟨hdK, hsd⟩
    · exact ⟨t, s, none, hfind, hsK, ht, fun n hn => by cases hn⟩
  · push_neg at h
    obtain ⟨a0, t, e, ha0K, hmin, ht, hfind, hsome, _⟩ :=
      find_lt_cases m pc hnd hne h
    exact ⟨t, a0, e, hfind, ha0K, ht,
      fun n hn => ⟨(hsome n hn).1, (hsome n hn).2.1⟩⟩

theorem c9_result_is_table_entry_witness :
    ((dkeys [(0x1000, 7)]).Nodup ∧ ([(0x1000, 7)] : List (Nat × Nat)) ≠ []) ∧
    (∃ t s e, find_test_for_pc [(0x1000, 7)] 0 = (some t, some s, e) ∧
      s ∈ dkeys [(0x1000, 7)] ∧ dget [(0x1000, 7)] s = some t ∧
      ∀ n, e = some n → n ∈ dkeys [(0x1000, 7)] ∧ s < n) :=
  ⟨⟨by decide, by decide⟩,
    c9_result_is_table_entry [(0x1000, 7)] 0 (by decide) (by decide)⟩

/-- C10 (implicit): for every non-empty symbol table and every `pc` at least
the minimum mapped address, `find_test_for_pc` returns `end = none` exactly
when the returned `start` is the maximum key, and the unmapped-gap branch
(`pc` at least the next sorted address) is unreachable: the function agrees
with the variant from which that branch has been removed. -/
theorem c10_gap_branch_unreachable (m : List (Nat × Nat)) (pc : Nat)
    (hnd : (dkeys m).Nodup) (a0 : Nat) (ha0 : a0 ∈ dkeys m) (hle : a0 ≤ pc) :
    (∃ s t e, find_test_for_pc m pc = (some t, some s, e) ∧ s ∈ dkeys m ∧
      (e = none ↔ ∀ a ∈ dkeys m, a ≤ s)) ∧
    find_test_for_pc m pc = find_test_for_pc_nogap m pc := by
  obtain ⟨s, t, hsK, ht, hsle, hmax, hcase⟩ := find_ge_cases m pc hnd a0 ha0 hle
  rcases hcase with ⟨d, hdK, hsd, hpcd, hleast, hfind, hfind2⟩ | ⟨hmax2, hfind, hfind2⟩
  · refine ⟨⟨s, t, some d, hfind, hsK, ?_⟩, by rw [hfind, hfind2]⟩
    constructor
    · intro hc; cases hc
    · intro hall; exact absurd (hall d hdK) (not_le_of_lt hsd)
  · exact ⟨⟨s, t, none, hfind, hsK, ⟨fun _ => hmax2, fun _ => rfl⟩⟩,
      by rw [hfind, hfind2]⟩

theorem c10_gap_branch_unreachable_witness :
    ((dkeys [(0x1000, 1)]).Nodup ∧ 0x1000 ∈ dkeys [(0x1000, 1)] ∧
      0x1000 ≤ 0x5000) ∧
    ((∃ s t e, find_test_for_pc [(0x1000, 1)] 0x5000 = (some t, some s, e) ∧
      s ∈ dkeys [(0x1000, 1)] ∧ (e = none ↔ ∀ a ∈ dkeys [(0x1000, 1)], a ≤ s)) ∧
    find_test_for_pc [(0x1000, 1)] 0x5000 =
      find_test_for_pc_nogap [(0x1000, 1)] 0x5000) :=
  ⟨⟨by decide, by decide, by decide⟩,
    c10_gap_branch_unreachable [(0x1000, 1)] 0x5000 (by decide) 0x1000
      (by decide) (by decide)⟩

/-! ### Groundwork: `parse_map_file` as a fold over decoded entries -/

theorem parse_map_foldl (lines : List Line) :
    ∀ m : List (Nat × Nat),
      lines.foldl
        (fun m l =>
          match decodeMapLine l with
          | some (t, a) => dinsert m a t
          | none => m) m =
      (lines.filterMap decodeMapLine).foldl (fun m p => dinsert m p.2 p.1) m := by
  induction lines with
  | nil => intro m; rfl
  | cons l ls ih =>
    intro m
    cases hd : decodeMapLine l with
    | none => simp [List.foldl_cons, List.filterMap_cons, hd, ih]
    | some p =>
      obtain ⟨t, a⟩ := p
      simp [List.foldl_cons, List.filterMap_cons, hd, ih]

theorem foldl_dinsert_getLast (a : Nat) :
    ∀ (es : List (Nat × Nat)) (m : List (Nat × Nat)),
      dget (es.foldl (fun m p => dinsert m p.2 p.1) m) a =
        match (es.filter (fun p => p.2 = a)).getLast? with
        | none => dget m a
        | some p => some p.1 := by
  intro es
  induction es with
  | nil => intro m; rfl
  | cons e es ih =>
    intro m
    rw [List.foldl_cons, ih]
    by_cases he : e.2 = a
    · have hd : (decide (e.2 = a)) = true := by simp [he]
      rw [List.filter_cons, if_pos hd, List.getLast?_cons]
      cases hq : (es.filter (fun p => decide (p.2 = a))).getLast? with
      | none =>
        rw [dget_dinsert, if_pos he.symm] at *
        simp [hq]
      | some q => simp [hq]
    · have hd : (decide (e.2 = a)) = false := by simp [he]
      have ha : ¬ a = e.2 := fun hc => he hc.symm
      rw [List.filter_cons, if_neg (by simp [hd])]
      cases hq : (es.filter (fun p => decide (p.2 = a))).getLast? with
      | none => simp [hq, dget_dinsert, ha]
      | some q => simp [hq]

/-- C6: building the symbol table is last-write-wins: the value the table
holds at any address is the test id of the last recognized line decoding to
that address (and absent when no recognized line maps it). -/
theorem c6_last_write_wins (lines : List Line) (a : Nat) :
    dget (parse_map_file lines) a =
      (((lines.filterMap decodeMapLine).filter (fun p => p.2 = a)).getLast?).map
        Prod.fst := by
  unfold parse_map_file
  rw [parse_map_foldl, foldl_dinsert_getLast]
  cases hq : ((lines.filterMap decodeMapLine).filter (fun p => p.2 = a)).getLast? with
  | none => simp [dget]
  | some q => simp

/-! ### Groundwork: character classes and scans over concatenations -/

theorem pyspace_not_lowerHex {c : Char} (h : isPySpace c = true) :
    isLowerHex c = false := by
  simp only [isPySpace, Bool.or_eq_true, decide_eq_true_eq] at h
  rcases h with ((((h | h) | h) | h) | h) | h <;> subst h <;> decide

theorem pyspace_not_hexChar {c : Char} (h : isPySpace c = true) :
    isHexChar c = false := by
  simp only [isPySpace, Bool.or_eq_true, decide_eq_true_eq] at h
  rcases h with ((((h | h) | h) | h) | h) | h <;> subst h <;> decide

theorem takeWhile_append_all {α : Type} (p : α → Bool) (xs ys : List α)
    (h : ∀ x ∈ xs, p x = true) :
    (xs ++ ys).takeWhile p = xs ++ ys.takeWhile p := by
  induction xs with
  | nil => simp
  | cons x xs' ih =>
    have hx : p x = true := h x (List.mem_cons_self x xs')
    simp only [List.cons_append, List.takeWhile_cons, hx, if_true]
    rw [ih (fun y hy => h y (List.mem_cons_of_mem x hy))]

theorem dropWhile_append_all {α : Type} (p : α → Bool) (xs ys : List α)
    (h : ∀ x ∈ xs, p x = true) :
    (xs ++ ys).dropWhile p = ys.dropWhile p := by
  induction xs with
  | nil => simp
  | cons x xs' ih =>
    have hx : p x = true := h x (List.mem_cons_self x xs')
    simp only [List.cons_append, List.dropWhile_cons, hx, if_true]
    exact ih (fun y hy => h y (List.mem_cons_of_mem x hy))

/-- The map-line grammar is decoded as specified: a line `test`, then a
nonempty run of lowercase hex digits, then nonempty whitespace, then a
nonempty maximal run of hex digits, then anything, decodes to the two
base-16 values. -/
theorem decodeMapLine_grammar (h1 w h2 r : Line)
    (hh1 : h1 ≠ [] ∧ ∀ c ∈ h1, isLowerHex c = true)
    (hw : w ≠ [] ∧ ∀ c ∈ w, isPySpace c = true)
    (hh2 : h2 ≠ [] ∧ ∀ c ∈ h2, isHexChar c = true)
    (hr : ∀ c, r.head? = some c → isHexChar c = false) :
    decodeMapLine ('t' :: 'e' :: 's' :: 't' :: (h1 ++ (w ++ (h2 ++ r)))) =
      some (fromHex h1, fromHex h2) := by
  obtain ⟨c1, h1', hc1⟩ := List.exists_cons_of_ne_nil hh1.1
  obtain ⟨cw, w', hcw⟩ := List.exists_cons_of_ne_nil hw.1
  obtain ⟨c2, h2', hc2⟩ := List.exists_cons_of_ne_nil hh2.1
  have hwlh : isLowerHex cw = false :=
    pyspace_not_lowerHex (hw.2 cw (hcw ▸ List.mem_cons_self cw w'))
  have hwhx : isPySpace c2 = false := by
    cases hps : isPySpace c2 with
    | false => rfl
    | true =>
      have hfalse := pyspace_not_hexChar hps
      have htrue : isHexChar c2 = true := hh2.2 c2 (hc2 ▸ List.mem_cons_self c2 h2')
      rw [hfalse] at htrue
      exact absurd htrue (by simp)
  have e1 : (h1 ++ (w ++ (h2 ++ r))).takeWhile isLowerHex = h1 := by
    rw [takeWhile_append_all isLowerHex h1 _ hh1.2, hcw, List.cons_append,
      List.takeWhile_cons, hwlh]
    simp
  have e2 : (h1 ++ (w ++ (h2 ++ r))).dropWhile isLowerHex = w ++ (h2 ++ r) := by
    rw [dropWhile_append_all isLowerHex h1 _ hh1.2, hcw, List.cons_append,
      List.dropWhile_cons, hwlh]
    simp
  have e3 : (w ++ (h2 ++ r)).takeWhile isPySpace = w := by
    rw [takeWhile_append_all isPySpace w _ hw.2, hc2, List.cons_append,
      List.takeWhile_cons, hwhx]
    simp
  have e4 : (w ++ (h2 ++ r)).dropWhile isPySpace = h2 ++ r := by
    rw [dropWhile_append_all isPySpace w _ hw.2, hc2, List.cons_append,
      List.dropWhile_cons, hwhx]
    simp
  have e5 : (h2 ++ r).takeWhile isHexChar = h2 := by
    rw [takeWhile_append_all isHexChar h2 _ hh2.2]
    cases hrc : r with
    | nil => simp
    | cons cr r' =>
      rw [List.takeWhile_cons, hr cr (by rw [hrc]; rfl)]
      simp
  have hne1 : h1.isEmpty = false := by rw [hc1]; rfl
  have hnew : w.isEmpty = false := by rw [hcw]; rfl
  have hne2 : h2.isEmpty = false := by rw [hc2]; rfl
  simp only [decodeMapLine]
  rw [e1, e2, e3, e4, e5, hne1, hnew, hne2]
  simp

/-- C7: the symbol-table loader inserts, for every line matching the
`test<hex-id><whitespace><hex-address>` grammar, the decoded
`address ↦ test id` mapping; every non-matching line is silently skipped (the
fold only visits decoded entries), and all-garbage input yields the empty
table rather than an error. -/
theorem c7_loader_skips_garbage (lines : List Line) (h1 w h2 r : Line)
    (hh1 : h1 ≠ [] ∧ ∀ c ∈ h1, isLowerHex c = true)
    (hw : w ≠ [] ∧ ∀ c ∈ w, isPySpace c = true)
    (hh2 : h2 ≠ [] ∧ ∀ c ∈ h2, isHexChar c = true)
    (hr : ∀ c, r.head? = some c → isHexChar c = false) :
    parse_map_file lines =
      (lines.filterMap decodeMapLine).foldl (fun m p => dinsert m p.2 p.1) [] ∧
    decodeMapLine ('t' :: 'e' :: 's' :: 't' :: (h1 ++ (w ++ (h2 ++ r)))) =
      some (fromHex h1, fromHex h2) ∧
    ((∀ l ∈ lines, decodeMapLine l = none) → parse_map_file lines = []) := by
  refine ⟨parse_map_foldl lines [], decodeMapLine_grammar h1 w h2 r hh1 hw hh2 hr, ?_⟩
  intro hall
  have hfm : lines.filterMap decodeMapLine = [] := by
    rw [List.filterMap_eq_nil_iff]
    exact hall
  rw [parse_map_file, parse_map_foldl lines [], hfm]
  rfl

theorem c7_loader_skips_garbage_witness :
    ((("0000".toList : Line) ≠ [] ∧ ∀ c ∈ ("0000".toList : Line), isLowerHex c = true) ∧
      ((" ".toList : Line) ≠ [] ∧ ∀ c ∈ (" ".toList : Line), isPySpace c = true) ∧
      (("008294".toList : Line) ≠ [] ∧ ∀ c ∈ ("008294".toList : Line), isHexChar c = true) ∧
      (∀ c, ("  LF".toList : Line).head? = some c → isHexChar c = false)) ∧
    (parse_map_file ["; header".toList, "garbage".toList] =
      ((["; header".toList, "garbage".toList].filterMap decodeMapLine).foldl
        (fun m p => dinsert m p.2 p.1) []) ∧
    decodeMapLine ('t' :: 'e' :: 's' :: 't' ::
        ("0000".toList ++ (" ".toList ++ ("008294".toList ++ "  LF".toList)))) =
      some (fromHex "0000".toList, fromHex "008294".toList) ∧
    ((∀ l ∈ ["; header".toList, "garbage".toList], decodeMapLine l = none) →
      parse_map_file ["; header".toList, "garbage".toList] = [])) :=
  ⟨⟨⟨by decide, by decide⟩, ⟨by decide, by decide⟩, ⟨by decide, by decide⟩, by decide⟩,
    c7_loader_skips_garbage ["; header".toList, "garbage".toList]
      "0000".toList " ".toList "008294".toList "  LF".toList
      ⟨by decide, by decide⟩ ⟨by decide, by decide⟩ ⟨by decide, by decide⟩ (by decide)⟩

/-! ### Groundwork: `parse_trace_log` keeps the last match -/

theorem parse_trace_log_foldl (lines : List Line) :
    ∀ acc : Option Nat × Option Line,
      lines.foldl
        (fun acc l =>
          match searchPC l with
          | some v => (some v, some (pstrip l))
          | none => acc) acc =
      match (lines.filter (fun l => (searchPC l).isSome)).getLast? with
      | none => acc
      | some l => (searchPC l, some (pstrip l)) := by
  induction lines with
  | nil => intro acc; rfl
  | cons l ls ih =>
    intro acc
    rw [List.foldl_cons]
    cases hs : searchPC l with
    | none =>
      have hnot : ((searchPC l).isSome) = false := by rw [hs]; rfl
      rw [List.filter_cons, if_neg (by simp [hnot])]
      simp only [hs]
      exact ih acc
    | some v =>
      have hyes : ((searchPC l).isSome) = true := by rw [hs]; rfl
      rw [List.filter_cons, if_pos (by simp [hyes]), List.getLast?_cons]
      simp only [hs]
      rw [ih ((some v, some (pstrip l)))]
      cases hq : (ls.filter (fun l => (searchPC l).isSome)).getLast? with
      | none => simp [hq, hs]
      | some q => simp [hq]

/-- C4 (amended): `parse_trace_log` returns the decoded PC and the text —
stripped of leading and trailing whitespace, as the source does — of the last
line matching the `PC:0x<hex><whitespace>|` pattern, and the empty result
`(none, none)` (not a zero address) when no line matches; on the three-line
example trace it returns pc `0x002000` with the second line's text. -/
theorem c4_scan_trace_last_match (lines : List Line) :
    parse_trace_log lines =
      (match (lines.filter (fun l => (searchPC l).isSome)).getLast? with
        | none => (none, none)
        | some l => (searchPC l, some (pstrip l))) ∧
    parse_trace_log
        ["... PC:0x001000 | ...".toList, "... PC:0x002000 | ...".toList,
          "no match here".toList] =
      (some 0x2000, some ("... PC:0x002000 | ...".toList)) :=
  ⟨parse_trace_log_foldl lines (none, none), by decide⟩

/-- C4 counterexample to the claim as stated: on a matching line carrying
leading and trailing whitespace the retained text is the stripped line, not
the line's verbatim text. -/
theorem c4_counterexample :
    (searchPC (" PC:0x2000 | ".toList)).isSome = true ∧
    parse_trace_log [" PC:0x2000 | ".toList] =
      (some 0x2000, some ("PC:0x2000 |".toList)) ∧
    (parse_trace_log [" PC:0x2000 | ".toList]).2 ≠
      some (" PC:0x2000 | ".toList) := by
  decide

/-! ### Groundwork: the assembly-locator loop -/

/-- Before the first marker line, the scan collects nothing. -/
theorem ftaLoop_skip (tn : Line) (pre : List Line)
    (h : ∀ l ∈ pre, isMarkerLine tn l = false) (rest : List Line) (acc : List Line) :
    ftaLoop tn (pre ++ rest) false acc = ftaLoop tn rest false acc := by
  induction pre with
  | nil => rfl
  | cons l pre' ih =>
    have hl : isMarkerLine tn l = false := h l (List.mem_cons_self l pre')
    rw [List.cons_append]
    show ftaLoop tn (l :: (pre' ++ rest)) false acc = ftaLoop tn rest false acc
    rw [ftaLoop, hl]
    simp only [Bool.false_eq_true, if_false]
    exact ih (fun x hx => h x (List.mem_cons_of_mem l hx))

/-- Once inside a block, the scan collects every line that contains the
queried marker text or fails the boundary grammar, and stops at the first
other line. -/
theorem ftaLoop_collect (tn : Line) :
    ∀ (post : List Line) (acc : List Line),
      ftaLoop tn post true acc =
        acc ++ post.takeWhile (fun l => isMarkerLine tn l || !isBoundaryLine l) := by
  intro post
  induction post with
  | nil => intro acc; simp [ftaLoop]
  | cons l ls ih =>
    intro acc
    cases hm : isMarkerLine tn l with
    | true =>
      rw [ftaLoop, hm]
      simp only [if_true]
      rw [ih, List.takeWhile_cons, hm]
      simp [List.append_assoc]
    | false =>
      cases hb : isBoundaryLine l with
      | true =>
        rw [ftaLoop, hm]
        simp only [Bool.false_eq_true, if_false, if_true, hb]
        rw [List.takeWhile_cons, hm, hb]
        simp
      | false =>
        rw [ftaLoop, hm]
        simp only [Bool.false_eq_true, if_false, hb]
        rw [ih, List.takeWhile_cons, hm, hb]
        simp [List.append_assoc]

/-- C2 (amended): on a listing whose first marker line for the requested id is
`ml`, `find_test_assembly` returns `ml` followed by every subsequent line,
stopping (exclusively) at the first later line that matches the start-marker
grammar `test[0-9a-f]+:` at line start *and does not itself contain the
queried marker text*; a line containing the queried marker text is collected
and scanning continues past it. -/
theorem c2_locate_assembly_block (pre post : List Line) (ml : Line) (n : Nat)
    (hpre : ∀ l ∈ pre, isMarkerLine (testLabel n) l = false)
    (hml : isMarkerLine (testLabel n) ml = true) :
    find_test_assembly (pre ++ ml :: post) n =
      ml :: post.takeWhile
        (fun l => isMarkerLine (testLabel n) l || !isBoundaryLine l) := by
  unfold find_test_assembly
  rw [ftaLoop_skip (testLabel n) pre hpre (ml :: post) [], ftaLoop, hml]
  simp only [if_true, List.nil_append]
  rw [ftaLoop_collect (testLabel n) post [ml]]
  rfl

theorem c2_locate_assembly_block_witness :
    ((∀ l ∈ [";; suite".toList, "test0001:".toList, "lda #$01".toList],
        isMarkerLine (testLabel 2) l = false) ∧
      isMarkerLine (testLabel 2) ("test0002:".toList) = true) ∧
    find_test_assembly
        [";; suite".toList, "test0001:".toList, "lda #$01".toList,
          "test0002:".toList, "lda #$02".toList, "test0003:".toList,
          "rts".toList] 2 =
      "test0002:".toList ::
        (["lda #$02".toList, "test0003:".toList, "rts".toList].takeWhile
          (fun l => isMarkerLine (testLabel 2) l || !isBoundaryLine l)) :=
  ⟨⟨by decide, by decide⟩,
    c2_locate_assembly_block
      [";; suite".toList, "test0001:".toList, "lda #$01".toList]
      ["lda #$02".toList, "test0003:".toList, "rts".toList]
      ("test0002:".toList) 2 (by decide) (by decide)⟩

/-- C2 counterexample to the claim as stated: a later line that matches the
start-marker grammar at line start but also contains the queried marker text
is collected, and scanning continues, instead of stopping there; the claim
would require the result to be just the marker line. -/
theorem c2_counterexample :
    isMarkerLine (testLabel 2) ("test0002:".toList) = true ∧
    isBoundaryLine ("test0003: test0002:".toList) = true ∧
    find_test_assembly
        ["test0002:".toList, "test0003: test0002:".toList, "test0003:".toList] 2 =
      ["test0002:".toList, "test0003: test0002:".toList] ∧
    find_test_assembly
        ["test0002:".toList, "test0003: test0002:".toList, "test0003:".toList] 2 ≠
      ["test0002:".toList] := by
  decide

/-- C8: when no line of the listing is a start-marker line for the requested
test id (contains its label text, in either case), `find_test_assembly`
returns the empty sequence rather than failing. -/
theorem c8_no_marker_empty (lines : List Line) (n : Nat)
    (h : ∀ l ∈ lines, isMarkerLine (testLabel n) l = false) :
    find_test_assembly lines n = [] := by
  unfold find_test_assembly
  have h1 := ftaLoop_skip (testLabel n) lines h [] []
  rw [List.append_nil] at h1
  rw [h1]
  rfl

theorem c8_no_marker_empty_witness :
    (∀ l ∈ ["test0001:".toList, "nop".toList, "test0003:".toList],
      isMarkerLine (testLabel 2) l = false) ∧
    find_test_assembly ["test0001:".toList, "nop".toList, "test0003:".toList] 2 = [] :=
  ⟨by decide,
    c8_no_marker_empty ["test0001:".toList, "nop".toList, "test0003:".toList] 2
      (by decide)⟩

end SnesTrace
